import Mathlib

/-!
# mute::uint128_t (include/mute/numeric/uint128.hpp)

A shallow embedding of the unsigned 128-bit integer type of
`include/mute/numeric/uint128.hpp`.

* A `uint64_t` is a natural number below `2 ^ 64`; every 64-bit operation of the
  source is written with its explicit reduction modulo `2 ^ 64`.
* The header compiles one of three bodies for most operators, chosen by the
  preprocessor symbols `MUTE_UINT128_NATIVE` and `MUTE_INT128_ARITHMETIC`.  The
  choice is the `Backend` argument of the embedded operators.
* Operations whose C++ behaviour is undefined on some inputs (division by zero,
  a trapping `_udiv128`, a 64-bit shift by a count outside `[0, 63]`) return an
  `Option`; `none` is undefined behaviour.
-/

namespace mute

/-- The conditional-compilation branch taken by the operators:
`native` when `MUTE_UINT128_NATIVE` is defined, `intrinsic` when it is not and
`MUTE_INT128_ARITHMETIC` is defined, `manual` when neither is defined. -/
inductive Backend where
  | native
  | intrinsic
  | manual
  deriving DecidableEq, Repr

/-- The struct `uint128_t`: the member `hilo_` with its words `lo` and `hi`. -/
structure uint128_t where
  lo : Nat
  hi : Nat
  deriving DecidableEq, Repr

namespace uint128_t

/-- The constant `storage_bits_`. -/
def storage_bits_ : Int := 64

/-- Both words are `uint64_t` values. -/
def WF (x : uint128_t) : Prop := x.lo < 2 ^ 64 ∧ x.hi < 2 ^ 64

instance (x : uint128_t) : Decidable (WF x) := by
  unfold WF
  exact inferInstance

/-- The number denoted by the two words, `hi * 2^64 + lo`. -/
def value (x : uint128_t) : Nat := x.hi * 2 ^ 64 + x.lo

/-- The union member `native` read through the two-word storage
(`lo` is the first eight bytes, the target is little-endian x86-64). -/
def native (x : uint128_t) : Nat := x.hi * 2 ^ 64 + x.lo

/-- Storing an `unsigned __int128` into the union member `native`. -/
def ofNative (n : Nat) : uint128_t := ⟨n % 2 ^ 64, n / 2 ^ 64 % 2 ^ 64⟩

/-- Default constructor `uint128_t()`. -/
def ctor0 : uint128_t := ⟨0, 0⟩

/-- Constructor `uint128_t(uint64_t lo_)`. -/
def ctor1 (lo_ : Nat) : uint128_t := ⟨lo_, 0⟩

/-- Constructor `uint128_t(uint64_t lo_, uint64_t hi_)`. -/
def ctor2 (lo_ hi_ : Nat) : uint128_t := ⟨lo_, hi_⟩

/-- The static member `exception()`: its body is empty. -/
def exception : Unit := ()

/-- Conversion of a C++ `bool` to an integer. -/
def b2n (b : Bool) : Nat := if b then 1 else 0

/-- Wrapping `uint64_t` subtraction `x - y`. -/
def sub64 (x y : Nat) : Nat := (x + (2 ^ 64 - y % 2 ^ 64)) % 2 ^ 64

/-- The `operator+`.  Two-word branch:
`y.lo = lo + rhs.lo; y.hi = hi + rhs.hi + (!y.lo && rhs.lo)`. -/
def operator_add (bk : Backend) (a rhs : uint128_t) : uint128_t :=
  match bk with
  | .native => ofNative ((a.native + rhs.native) % 2 ^ 128)
  | _ =>
    let ylo := (a.lo + rhs.lo) % 2 ^ 64
    let yhi := (a.hi + rhs.hi + b2n (ylo == 0 && rhs.lo != 0)) % 2 ^ 64
    ⟨ylo, yhi⟩

/-- The `operator-`.  Two-word branch:
`y.lo = lo - rhs.lo; y.hi = hi - rhs.hi - (rhs.lo && y.lo > lo)`. -/
def operator_sub (bk : Backend) (a rhs : uint128_t) : uint128_t :=
  match bk with
  | .native => ofNative ((a.native + (2 ^ 128 - rhs.native % 2 ^ 128)) % 2 ^ 128)
  | _ =>
    let ylo := sub64 a.lo rhs.lo
    let yhi := sub64 (sub64 a.hi rhs.hi) (b2n (rhs.lo != 0 && decide (ylo > a.lo)))
    ⟨ylo, yhi⟩

/-- Modelled from the spec: the platform intrinsic `_umul128(x, y, &h)` (64×64→128
multiply) is declared in `<intrin.h>`, not in this repository.  It returns the low
64 bits of the exact product and stores the high 64 bits through `h`.  The pair is
`(returned value, value stored through the pointer)`. -/
def _umul128 (x y : Nat) : Nat × Nat := ((x * y) % 2 ^ 64, (x * y) / 2 ^ 64 % 2 ^ 64)

/-- Modelled from the spec: the platform intrinsic `_udiv128(hi, lo, d, &rem)`
(128÷64 divide-with-remainder) is declared in `<intrin.h>`, not in this repository.
It divides the 128-bit number `hi:lo` by `d`, returns the quotient and stores the
remainder through `rem`; it traps when `d = 0` or when the quotient does not fit in
64 bits (`none`).  The pair is `(returned value, value stored through the pointer)`. -/
def _udiv128 (hi lo d : Nat) : Option (Nat × Nat) :=
  if d = 0 ∨ d ≤ hi then none
  else some ((hi * 2 ^ 64 + lo) / d, (hi * 2 ^ 64 + lo) % d)

/-- The `operator*` (128-bit by 64-bit multiply). -/
def operator_mul (bk : Backend) (a : uint128_t) (rhs : Nat) : uint128_t :=
  let y : uint128_t := ctor0
  match bk with
  | .native => ofNative ((a.native * rhs) % 2 ^ 128)
  | .intrinsic =>
    -- Multiply by the low part
    let p := _umul128 a.lo rhs
    let y : uint128_t := ⟨p.1, p.2⟩
    -- Add the high part and ignore the overflow
    let q := _umul128 a.hi rhs
    ⟨y.lo, (y.hi + q.1) % 2 ^ 64⟩
  | .manual =>
    let _ := exception
    y

/-- The `operator/` (128-bit by 64-bit divide, 64-bit quotient). -/
def operator_div (bk : Backend) (a : uint128_t) (divisor : Nat) : Option Nat :=
  let quotient : Nat := 0
  match bk with
  | .native =>
    if divisor = 0 then none else some ((a.native / divisor) % 2 ^ 64)
  | .intrinsic =>
    (_udiv128 a.hi a.lo divisor).map fun qr => qr.1
  | .manual =>
    let _ := exception
    some quotient

/-- The `operator%` (128-bit by 64-bit remainder). -/
def operator_mod (bk : Backend) (a : uint128_t) (divisor : Nat) : Option Nat :=
  let remainder : Nat := 0
  match bk with
  | .native =>
    if divisor = 0 then none else some ((a.native % divisor) % 2 ^ 64)
  | .intrinsic =>
    (_udiv128 a.hi a.lo divisor).map fun qr => qr.2
  | .manual =>
    let _ := exception
    some remainder

/-- The method `divmod(uint64_t &remainder, uint64_t divisor)`.  The argument
`remainder` is the content of the out-parameter on entry; the result is
`(returned quotient, content of the out-parameter on exit)`. -/
def divmod (bk : Backend) (a : uint128_t) (remainder divisor : Nat) : Option (Nat × Nat) :=
  let quotient : Nat := 0
  match bk with
  | .native =>
    if divisor = 0 then none
    else some ((a.native / divisor) % 2 ^ 64, (a.native % divisor) % 2 ^ 64)
  | .intrinsic =>
    _udiv128 a.hi a.lo divisor
  | .manual =>
    let _ := exception
    some (quotient, remainder)

/-- The built-in `x << n` on a `uint64_t` with an `int` count; a count outside
`[0, 63]` is undefined (`none`). -/
def shl64 (x : Nat) (n : Int) : Option Nat :=
  if 0 ≤ n ∧ n < 64 then some ((x * 2 ^ n.toNat) % 2 ^ 64) else none

/-- The built-in `x >> n` on a `uint64_t` with an `int` count; a count outside
`[0, 63]` is undefined (`none`). -/
def shr64 (x : Nat) (n : Int) : Option Nat :=
  if 0 ≤ n ∧ n < 64 then some (x / 2 ^ n.toNat) else none

/-- The `operator<<(int sh)`. -/
def operator_shl (a : uint128_t) (sh : Int) : Option uint128_t :=
  if sh = 0 then
    some a
  else if sh ≥ storage_bits_ then
    (shl64 a.lo (sh - storage_bits_)).bind fun h => some (ctor2 0 h)
  else
    (shl64 a.lo sh).bind fun l =>
    (shl64 a.hi sh).bind fun h1 =>
    (shr64 a.lo (storage_bits_ - sh)).bind fun h2 =>
    some (ctor2 l (h1 ||| h2))

/-- The `operator>>(int sh)`. -/
def operator_shr (a : uint128_t) (sh : Int) : Option uint128_t :=
  if sh = 0 then
    some a
  else if sh ≥ storage_bits_ then
    (shr64 a.hi (sh - storage_bits_)).bind fun l => some (ctor2 l 0)
  else
    (shr64 a.lo sh).bind fun l1 =>
    (shl64 a.hi (storage_bits_ - sh)).bind fun l2 =>
    (shr64 a.hi sh).bind fun h =>
    some (ctor2 (l1 ||| l2) h)

/-- The counts of the built-in 64-bit shifts that `operator<<(int sh)` evaluates, in
the branch it takes: none for `sh == 0`; `sh - storage_bits_` for
`sh >= storage_bits_`; otherwise `sh` (on `lo`), `sh` (on `hi`) and
`storage_bits_ - sh` (on `lo`). -/
def operator_shl_counts (sh : Int) : List Int :=
  if sh = 0 then
    []
  else if sh ≥ storage_bits_ then
    [sh - storage_bits_]
  else
    [sh, sh, storage_bits_ - sh]

/-- The counts of the built-in 64-bit shifts that `operator>>(int sh)` evaluates, in
the branch it takes: none for `sh == 0`; `sh - storage_bits_` for
`sh >= storage_bits_`; otherwise `sh` (on `lo`), `storage_bits_ - sh` (on `hi`)
and `sh` (on `hi`). -/
def operator_shr_counts (sh : Int) : List Int :=
  if sh = 0 then
    []
  else if sh ≥ storage_bits_ then
    [sh - storage_bits_]
  else
    [sh, storage_bits_ - sh, sh]

/-- The conversion `explicit operator uint64_t()`. -/
def toUInt64 (a : uint128_t) : Nat := a.lo

end uint128_t

end mute

/-!
# mutlass::PitchLinearCoord (include/mutlass/pitch_linear_coord.h)

An `int` is an integer in `[-2^31, 2^31 - 1]`; negating `-2^31` overflows, which is
undefined in C++ (`none`).
-/

namespace mutlass

/-- The values of the C++ type `int` (32 bits). -/
def IsInt (x : Int) : Prop := -2 ^ 31 ≤ x ∧ x ≤ 2 ^ 31 - 1

instance (x : Int) : Decidable (IsInt x) := by
  unfold IsInt
  exact inferInstance

/-- The built-in unary `-x` on an `int`; it overflows for `x = -2^31` (`none`). -/
def int_neg (x : Int) : Option Int :=
  if x = -2 ^ 31 then none else some (-x)

/-- Modelled from the spec: the class template `Coord<2, int>` is declared in
`mutlass/coord.h`, which is not in this repository fragment.  It is a direct
aggregate of its two `int` values, in index order. -/
structure Coord2 where
  idx0 : Int
  idx1 : Int
  deriving DecidableEq, Repr

/-- Modelled from the spec: the helper `make_Coord(x0, x1)` of `mutlass/coord.h`; it
holds its first argument at index 0 and its second at index 1. -/
def make_Coord (x0 x1 : Int) : Coord2 := ⟨x0, x1⟩

/-- Modelled from the spec: the member `Coord<2, int>::at(dim)` of `mutlass/coord.h`;
it returns the value held at index `dim`. -/
def Coord2.at (c : Coord2) (dim : Fin 2) : Int :=
  if dim = 0 then c.idx0 else c.idx1

/-- The struct `PitchLinearCoord`, whose only state is its base `Coord<2, int>`. -/
structure PitchLinearCoord where
  Base : Coord2
  deriving DecidableEq, Repr

namespace PitchLinearCoord

/-- The constant `kContiguous`. -/
def kContiguous : Fin 2 := 0

/-- The constant `kStrided`. -/
def kStrided : Fin 2 := 1

/-- Constructor `PitchLinearCoord(Coord<2, Index> const &coord)`. -/
def ofCoord (coord : Coord2) : PitchLinearCoord := ⟨coord⟩

/-- Constructor `PitchLinearCoord(Index contiguous_, Index strided_)`. -/
def ctor (contiguous_ strided_ : Int) : PitchLinearCoord :=
  ⟨make_Coord contiguous_ strided_⟩

/-- The accessor `contiguous()`. -/
def contiguous (p : PitchLinearCoord) : Int := p.Base.at kContiguous

/-- The accessor `strided()`. -/
def strided (p : PitchLinearCoord) : Int := p.Base.at kStrided

/-- The unary `operator-()`: `PitchLinearCoord(-at(0), -at(1))`. -/
def operator_neg (p : PitchLinearCoord) : Option PitchLinearCoord :=
  (int_neg (p.Base.at 0)).bind fun c =>
  (int_neg (p.Base.at 1)).bind fun s =>
  some (ctor c s)

end PitchLinearCoord

end mutlass

open mute mute.uint128_t

/-! ## Word-level facts -/

theorem value_ofNative (n : Nat) : value (ofNative n) = n % 2 ^ 128 := by
  simp only [value, ofNative]
  omega

theorem WF_ofNative (n : Nat) : WF (ofNative n) := by
  simp only [WF, ofNative]
  omega

theorem two_pow_128_int : (2 : Int) ^ 128 = ((2 ^ 128 : Nat) : Int) := by
  norm_num

/-! ## Addition and subtraction -/

/-- The carry bit `!y.lo && rhs.lo` of the two-word `operator+` is set only when the
low words sum to exactly `2^64`. -/
theorem add_carry_term (a b : uint128_t) (ha : WF a) (hb : WF b) :
    b2n ((a.lo + b.lo) % 2 ^ 64 == 0 && b.lo != 0)
      = if a.lo + b.lo = 2 ^ 64 then 1 else 0 := by
  obtain ⟨hal, _⟩ := ha
  obtain ⟨hbl, _⟩ := hb
  have hcond : ((a.lo + b.lo) % 2 ^ 64 == 0 && b.lo != 0) = decide (a.lo + b.lo = 2 ^ 64) := by
    rw [Bool.eq_iff_iff]
    simp only [Bool.and_eq_true, beq_iff_eq, bne_iff_ne, ne_eq, decide_eq_true_eq]
    omega
  rw [hcond]
  by_cases h : a.lo + b.lo = 2 ^ 64
  · rw [if_pos h, decide_eq_true h]; rfl
  · rw [if_neg h, decide_eq_false h]; rfl

/-- Value of the two-word `operator+`: the sum modulo `2^128` when the low words sum
to at most `2^64`, and `2^64` less than the sum (modulo `2^128`) otherwise. -/
theorem operator_add_two_word_value (bk : Backend) (a b : uint128_t)
    (hbk : bk ≠ .native) (ha : WF a) (hb : WF b) :
    value (operator_add bk a b)
      = (value a + value b - (if 2 ^ 64 < a.lo + b.lo then 2 ^ 64 else 0)) % 2 ^ 128 := by
  have hc := add_carry_term a b ha hb
  obtain ⟨hal, hah⟩ := ha
  obtain ⟨hbl, hbh⟩ := hb
  have key : value (⟨(a.lo + b.lo) % 2 ^ 64,
        (a.hi + b.hi + b2n ((a.lo + b.lo) % 2 ^ 64 == 0 && b.lo != 0)) % 2 ^ 64⟩ : uint128_t)
      = (value a + value b - (if 2 ^ 64 < a.lo + b.lo then 2 ^ 64 else 0)) % 2 ^ 128 := by
    rw [hc]
    simp only [value]
    by_cases h1 : a.lo + b.lo = 2 ^ 64
    · rw [if_pos h1, if_neg (by omega)]; omega
    · rw [if_neg h1]
      by_cases h2 : 2 ^ 64 < a.lo + b.lo
      · rw [if_pos h2]; omega
      · rw [if_neg h2]; omega
  cases bk
  · exact absurd rfl hbk
  · exact key
  · exact key

/-- C1 (evaluation at the failing input): on the two-word branches
`(lo = 2^64 - 1, hi = 0) + (lo = 2, hi = 0)` is `(lo = 1, hi = 0)`, of value `1`,
whereas the sum modulo `2^128` is `2^64 + 1`; the native branch returns
`(lo = 1, hi = 1)`. -/
theorem C1_operator_add_carry_lost :
    operator_add .manual ⟨2 ^ 64 - 1, 0⟩ ⟨2, 0⟩ = ⟨1, 0⟩ ∧
    operator_add .intrinsic ⟨2 ^ 64 - 1, 0⟩ ⟨2, 0⟩ = ⟨1, 0⟩ ∧
    value (operator_add .manual ⟨2 ^ 64 - 1, 0⟩ ⟨2, 0⟩) = 1 ∧
    (value ⟨2 ^ 64 - 1, 0⟩ + value ⟨2, 0⟩) % 2 ^ 128 = 2 ^ 64 + 1 ∧
    operator_add .native ⟨2 ^ 64 - 1, 0⟩ ⟨2, 0⟩ = ⟨1, 1⟩ := by
  decide

/-- C2 (evaluation at the failing input): on the two-word branch, with
`a = (lo = 2^64 - 1, hi = 0)` and `b = (lo = 2, hi = 0)`, `(a + b) - b` is
`(lo = 2^64 - 1, hi = 2^64 - 1)`, which is not `a`. -/
theorem C2_add_then_sub_differs :
    operator_sub .manual (operator_add .manual ⟨2 ^ 64 - 1, 0⟩ ⟨2, 0⟩) ⟨2, 0⟩
      = ⟨2 ^ 64 - 1, 2 ^ 64 - 1⟩ ∧
    operator_sub .manual (operator_add .manual ⟨2 ^ 64 - 1, 0⟩ ⟨2, 0⟩) ⟨2, 0⟩
      ≠ ⟨2 ^ 64 - 1, 0⟩ := by
  decide

/-- C3: `a + b == b + a` for all 128-bit `a` and `b`, on every branch of
`operator+`: the low words and the high words of the two results are equal, and the
carry term `!y.lo && rhs.lo` has the same value in both orders. -/
theorem C3_operator_add_comm (bk : Backend) (a b : uint128_t) (ha : WF a) (hb : WF b) :
    (operator_add bk a b).lo = (operator_add bk b a).lo ∧
    (operator_add bk a b).hi = (operator_add bk b a).hi ∧
    ((a.lo + b.lo) % 2 ^ 64 == 0 && b.lo != 0)
      = ((b.lo + a.lo) % 2 ^ 64 == 0 && a.lo != 0) := by
  obtain ⟨hal, _⟩ := ha
  obtain ⟨hbl, _⟩ := hb
  have hc : ((a.lo + b.lo) % 2 ^ 64 == 0 && b.lo != 0)
      = ((a.lo + b.lo) % 2 ^ 64 == 0 && a.lo != 0) := by
    rw [Bool.eq_iff_iff]
    simp only [Bool.and_eq_true, beq_iff_eq, bne_iff_ne, ne_eq]
    omega
  cases bk
  · simp only [operator_add, Nat.add_comm b.native a.native, Nat.add_comm b.lo a.lo, hc,
      and_self]
  · simp only [operator_add, Nat.add_comm b.lo a.lo, Nat.add_comm b.hi a.hi, hc, and_self]
  · simp only [operator_add, Nat.add_comm b.lo a.lo, Nat.add_comm b.hi a.hi, hc, and_self]

theorem C3_operator_add_comm_witness :
    (operator_add .manual ⟨2 ^ 64 - 1, 5⟩ ⟨1, 7⟩).lo
        = (operator_add .manual ⟨1, 7⟩ ⟨2 ^ 64 - 1, 5⟩).lo ∧
    (operator_add .manual ⟨2 ^ 64 - 1, 5⟩ ⟨1, 7⟩).hi
        = (operator_add .manual ⟨1, 7⟩ ⟨2 ^ 64 - 1, 5⟩).hi ∧
    ((2 ^ 64 - 1 + 1) % 2 ^ 64 == 0 && (1 : Nat) != 0)
      = ((1 + (2 ^ 64 - 1)) % 2 ^ 64 == 0 && (2 ^ 64 - 1 : Nat) != 0) :=
  C3_operator_add_comm .manual ⟨2 ^ 64 - 1, 5⟩ ⟨1, 7⟩ (by decide) (by decide)

/-- C4: for all 128-bit `a` and `b`, `operator-` returns the difference modulo
`2^128` (on every branch); on the two-word branches the high word is
`a.hi - b.hi - borrow` with `borrow = 1` exactly when `a.lo < b.lo`; and
`(lo = 0, hi = 1) - (lo = 1, hi = 0) = (lo = 0xFFFFFFFFFFFFFFFF, hi = 0)`. -/
theorem C4_operator_sub_value (bk : Backend) (a b : uint128_t) (ha : WF a) (hb : WF b) :
    ((value (operator_sub bk a b) : Nat) : Int)
        = ((value a : Int) - (value b : Int)) % 2 ^ 128 ∧
    WF (operator_sub bk a b) ∧
    (bk ≠ .native →
      (operator_sub bk a b).hi
        = sub64 (sub64 a.hi b.hi) (if a.lo < b.lo then 1 else 0)) ∧
    operator_sub bk ⟨0, 1⟩ ⟨1, 0⟩ = ⟨0xFFFFFFFFFFFFFFFF, 0⟩ := by
  obtain ⟨hal, hah⟩ := ha
  obtain ⟨hbl, hbh⟩ := hb
  rw [two_pow_128_int]
  have hcond : (b.lo != 0 && decide (sub64 a.lo b.lo > a.lo)) = decide (a.lo < b.lo) := by
    rw [Bool.eq_iff_iff]
    simp only [Bool.and_eq_true, bne_iff_ne, ne_eq, decide_eq_true_eq, sub64]
    omega
  have hborrow : b2n (b.lo != 0 && decide (sub64 a.lo b.lo > a.lo))
      = if a.lo < b.lo then 1 else 0 := by
    rw [hcond]
    by_cases hlt : a.lo < b.lo
    · rw [if_pos hlt, decide_eq_true hlt]; rfl
    · rw [if_neg hlt, decide_eq_false hlt]; rfl
  have htwo : ∀ bk2 : Backend, bk2 ≠ .native →
      operator_sub bk2 a b
        = ⟨sub64 a.lo b.lo, sub64 (sub64 a.hi b.hi) (if a.lo < b.lo then 1 else 0)⟩ := by
    intro bk2 h
    cases bk2
    · exact absurd rfl h
    · simp only [operator_sub, hborrow]
    · simp only [operator_sub, hborrow]
  have hval2 : ((value (⟨sub64 a.lo b.lo,
        sub64 (sub64 a.hi b.hi) (if a.lo < b.lo then 1 else 0)⟩ : uint128_t) : Nat) : Int)
        = ((value a : Int) - (value b : Int)) % ((2 ^ 128 : Nat) : Int) ∧
      WF ⟨sub64 a.lo b.lo, sub64 (sub64 a.hi b.hi) (if a.lo < b.lo then 1 else 0)⟩ := by
    by_cases hlt : a.lo < b.lo
    · rw [if_pos hlt]
      simp only [value, WF, sub64]
      omega
    · rw [if_neg hlt]
      simp only [value, WF, sub64]
      omega
  have hni : Backend.intrinsic ≠ Backend.native := fun h => Backend.noConfusion h
  have hnm : Backend.manual ≠ Backend.native := fun h => Backend.noConfusion h
  refine ⟨?_, ?_, ?_, ?_⟩
  · cases bk
    · simp only [operator_sub]
      rw [value_ofNative]
      simp only [native, value]
      omega
    · rw [htwo .intrinsic hni]; exact hval2.1
    · rw [htwo .manual hnm]; exact hval2.1
  · cases bk
    · exact WF_ofNative _
    · rw [htwo .intrinsic hni]; exact hval2.2
    · rw [htwo .manual hnm]; exact hval2.2
  · intro h
    rw [htwo bk h]
  · cases bk <;> decide

theorem C4_operator_sub_value_witness :
    ((value (operator_sub .manual ⟨0, 1⟩ ⟨1, 0⟩) : Nat) : Int)
        = ((value ⟨0, 1⟩ : Int) - (value ⟨1, 0⟩ : Int)) % 2 ^ 128 ∧
    WF (operator_sub .manual ⟨0, 1⟩ ⟨1, 0⟩) ∧
    (Backend.manual ≠ .native →
      (operator_sub .manual ⟨0, 1⟩ ⟨1, 0⟩).hi
        = sub64 (sub64 1 0) (if 0 < 1 then 1 else 0)) ∧
    operator_sub .manual ⟨0, 1⟩ ⟨1, 0⟩ = ⟨0xFFFFFFFFFFFFFFFF, 0⟩ :=
  C4_operator_sub_value .manual ⟨0, 1⟩ ⟨1, 0⟩ (by decide) (by decide)

/-! ## Shifts -/

/-- Splitting a word at a bit position: with `P * Q = 2^64`, the word product
`x * P` reduced to 64 bits keeps the low part of `x`, moved up. -/
theorem mul_mod_word (x P Q : Nat) (hPQ : Q * P = 2 ^ 64) :
    (x * P) % 2 ^ 64 = (x % Q) * P := by
  rw [← hPQ, Nat.mul_mod_mul_right]

theorem word_factor_pos (P Q : Nat) (hPQ : Q * P = 2 ^ 64) : 0 < P ∧ 0 < Q := by
  constructor
  · rcases Nat.eq_zero_or_pos P with h | h
    · subst h; simp at hPQ
    · exact h
  · rcases Nat.eq_zero_or_pos Q with h | h
    · subst h; simp at hPQ
    · exact h

theorem mod_mul_add_le (x P Q : Nat) (hPQ : Q * P = 2 ^ 64) :
    (x % Q) * P + P ≤ 2 ^ 64 := by
  have hQ := (word_factor_pos P Q hPQ).2
  have h1 : x % Q + 1 ≤ Q := Nat.mod_lt x hQ
  calc (x % Q) * P + P = (x % Q + 1) * P := by ring
    _ ≤ Q * P := Nat.mul_le_mul_right P h1
    _ = 2 ^ 64 := hPQ

theorem mul_split (x P Q : Nat) (hPQ : Q * P = 2 ^ 64) :
    x * P = (x / Q) * 2 ^ 64 + (x % Q) * P := by
  rw [← hPQ]
  conv_lhs => rw [← Nat.div_add_mod x Q]
  ring

/-- The split left shift as exact arithmetic: for `P * Q = 2^64` and a 64-bit `lo`. -/
theorem shl_split (hi lo P Q : Nat) (hPQ : Q * P = 2 ^ 64) (hlo : lo < 2 ^ 64) :
    (hi * P) % 2 ^ 64 + lo / Q < 2 ^ 64 ∧
    ((hi * P) % 2 ^ 64 + lo / Q) * 2 ^ 64 + (lo * P) % 2 ^ 64
      = ((hi * 2 ^ 64 + lo) * P) % 2 ^ 128 := by
  have e1 := mul_mod_word hi P Q hPQ
  have e2 := mul_mod_word lo P Q hPQ
  have e3 := mul_split lo P Q hPQ
  have b1 := mod_mul_add_le hi P Q hPQ
  have b2 := mod_mul_add_le lo P Q hPQ
  have hP := (word_factor_pos P Q hPQ).1
  have b3 : lo / Q < P := Nat.div_lt_of_lt_mul (by rw [hPQ]; exact hlo)
  have e4 : (hi * 2 ^ 64 + lo) * P = (hi * P + lo / Q) * 2 ^ 64 + (lo % Q) * P := by
    calc (hi * 2 ^ 64 + lo) * P = hi * P * 2 ^ 64 + lo * P := by ring
      _ = hi * P * 2 ^ 64 + ((lo / Q) * 2 ^ 64 + (lo % Q) * P) := by rw [← e3]
      _ = (hi * P + lo / Q) * 2 ^ 64 + (lo % Q) * P := by ring
  rw [e4, e2]
  clear e4 e3
  generalize hi * P = A at *
  generalize (hi % Q) * P = M at *
  generalize (lo % Q) * P = Y at *
  generalize lo / Q = L at *
  omega

/-- The split right shift as exact arithmetic: for `P * Q = 2^64` and a 64-bit `lo`. -/
theorem shr_split (hi lo P Q : Nat) (hPQ : Q * P = 2 ^ 64) (hlo : lo < 2 ^ 64) :
    lo / P + (hi * Q) % 2 ^ 64 < 2 ^ 64 ∧
    (hi / P) * 2 ^ 64 + (lo / P + (hi * Q) % 2 ^ 64) = (hi * 2 ^ 64 + lo) / P := by
  have hQP : P * Q = 2 ^ 64 := by rw [Nat.mul_comm]; exact hPQ
  have e1 := mul_mod_word hi Q P hQP
  have e3 := mul_split hi Q P hQP
  have b1 := mod_mul_add_le hi Q P hQP
  have hP := (word_factor_pos P Q hPQ).1
  have b3 : lo / P < Q := Nat.div_lt_of_lt_mul (by rw [hQP]; exact hlo)
  have e4 : (hi * 2 ^ 64 + lo) / P = lo / P + hi * Q := by
    rw [← hPQ, ← Nat.mul_assoc, Nat.add_comm, Nat.add_mul_div_right _ _ hP]
  rw [e4, e1, e3]
  generalize (hi % P) * Q = M at *
  generalize lo / P = L at *
  generalize hi / P = H at *
  omega

/-- A multiple of `2^n` and a number below `2^n` have disjoint bits. -/
theorem or_eq_add_of_lt (x y n : Nat) (hy : y < 2 ^ n) :
    (x * 2 ^ n) ||| y = x * 2 ^ n + y := by
  rw [Nat.mul_comm x (2 ^ n)]
  exact (Nat.mul_add_lt_is_or hy x).symm

theorem shl64_natCast (x k : Nat) (hk : k < 64) :
    shl64 x (k : Int) = some ((x * 2 ^ k) % 2 ^ 64) := by
  unfold shl64
  rw [if_pos ⟨by omega, by omega⟩, Int.toNat_ofNat]

theorem shr64_natCast (x k : Nat) (hk : k < 64) :
    shr64 x (k : Int) = some (x / 2 ^ k) := by
  unfold shr64
  rw [if_pos ⟨by omega, by omega⟩, Int.toNat_ofNat]

theorem value_lt (a : uint128_t) (ha : WF a) : value a < 2 ^ 128 := by
  obtain ⟨h1, h2⟩ := ha
  simp only [value]
  omega

/-- The three branches of `operator<<` for a shift count given as a natural number. -/
theorem operator_shl_natCast (a : uint128_t) (n : Nat) (hn : n ≤ 127) :
    operator_shl a (n : Int) =
      if n = 0 then some a
      else if 64 ≤ n then some ⟨0, (a.lo * 2 ^ (n - 64)) % 2 ^ 64⟩
      else some ⟨(a.lo * 2 ^ n) % 2 ^ 64,
                 (a.hi * 2 ^ n) % 2 ^ 64 ||| a.lo / 2 ^ (64 - n)⟩ := by
  unfold operator_shl storage_bits_
  by_cases h0 : n = 0
  · subst h0; simp
  · have h0i : ¬ ((n : Int) = 0) := by omega
    rw [if_neg h0, if_neg h0i]
    by_cases h64 : 64 ≤ n
    · have e : (n : Int) - 64 = ((n - 64 : Nat) : Int) := by omega
      rw [if_pos h64, if_pos (by omega), e, shl64_natCast _ _ (by omega)]
      rfl
    · have e : (64 : Int) - (n : Int) = ((64 - n : Nat) : Int) := by omega
      rw [if_neg h64, if_neg (by omega), e, shl64_natCast _ _ (by omega),
        shl64_natCast _ _ (by omega), shr64_natCast _ _ (by omega)]
      rfl

/-- The three branches of `operator>>` for a shift count given as a natural number. -/
theorem operator_shr_natCast (a : uint128_t) (n : Nat) (hn : n ≤ 127) :
    operator_shr a (n : Int) =
      if n = 0 then some a
      else if 64 ≤ n then some ⟨a.hi / 2 ^ (n - 64), 0⟩
      else some ⟨a.lo / 2 ^ n ||| (a.hi * 2 ^ (64 - n)) % 2 ^ 64, a.hi / 2 ^ n⟩ := by
  unfold operator_shr storage_bits_
  by_cases h0 : n = 0
  · subst h0; simp
  · have h0i : ¬ ((n : Int) = 0) := by omega
    rw [if_neg h0, if_neg h0i]
    by_cases h64 : 64 ≤ n
    · have e : (n : Int) - 64 = ((n - 64 : Nat) : Int) := by omega
      rw [if_pos h64, if_pos (by omega), e, shr64_natCast _ _ (by omega)]
      rfl
    · have e : (64 : Int) - (n : Int) = ((64 - n : Nat) : Int) := by omega
      rw [if_neg h64, if_neg (by omega), e, shr64_natCast _ _ (by omega),
        shl64_natCast _ _ (by omega), shr64_natCast _ _ (by omega)]
      rfl

theorem two_pow_split (n : Nat) (hn : n ≤ 64) : 2 ^ (64 - n) * 2 ^ n = 2 ^ 64 := by
  rw [← Nat.pow_add]
  congr 1
  omega

/-- Left shift: the result exists, is well formed and denotes `value a * 2^n mod 2^128`. -/
theorem operator_shl_spec (a : uint128_t) (n : Nat) (ha : WF a) (hn : n ≤ 127) :
    ∃ r, operator_shl a (n : Int) = some r ∧ WF r ∧
      value r = (value a * 2 ^ n) % 2 ^ 128 ∧
      (n = 0 → r = a) ∧
      (64 ≤ n → r.lo = 0 ∧ r.hi = (a.lo * 2 ^ (n - 64)) % 2 ^ 64) := by
  have hv := value_lt a ha
  obtain ⟨hal, hah⟩ := ha
  rw [operator_shl_natCast a n hn]
  by_cases h0 : n = 0
  · subst h0
    refine ⟨a, by simp, ⟨hal, hah⟩, ?_, fun _ => rfl, fun h => absurd h (by omega)⟩
    rw [Nat.pow_zero, Nat.mul_one, Nat.mod_eq_of_lt hv]
  · rw [if_neg h0]
    by_cases h64 : 64 ≤ n
    · rw [if_pos h64]
      refine ⟨_, rfl, ⟨by show 0 < 2 ^ 64; omega, Nat.mod_lt _ (by omega)⟩, ?_,
        fun h => absurd h h0, fun _ => ⟨rfl, rfl⟩⟩
      simp only [value]
      have e : 2 ^ n = 2 ^ (n - 64) * 2 ^ 64 := by
        rw [← Nat.pow_add]; congr 1; omega
      have e2 : (a.hi * 2 ^ 64 + a.lo) * (2 ^ (n - 64) * 2 ^ 64)
          = (a.lo * 2 ^ (n - 64)) * 2 ^ 64 + (a.hi * 2 ^ (n - 64)) * 2 ^ 128 := by ring
      rw [e, e2]
      generalize a.lo * 2 ^ (n - 64) = X
      generalize a.hi * 2 ^ (n - 64) = Y
      omega
    · rw [if_neg h64]
      have hPQ := two_pow_split n (by omega)
      obtain ⟨hb, hs⟩ := shl_split a.hi a.lo (2 ^ n) (2 ^ (64 - n)) hPQ hal
      have hlt : a.lo / 2 ^ (64 - n) < 2 ^ n :=
        Nat.div_lt_of_lt_mul (by rw [hPQ]; exact hal)
      have hor : (a.hi * 2 ^ n) % 2 ^ 64 ||| a.lo / 2 ^ (64 - n)
          = (a.hi * 2 ^ n) % 2 ^ 64 + a.lo / 2 ^ (64 - n) := by
        rw [mul_mod_word a.hi _ _ hPQ]
        exact or_eq_add_of_lt _ _ n hlt
      refine ⟨_, rfl, ⟨Nat.mod_lt _ (by omega), ?_⟩, ?_,
        fun h => absurd h h0, fun h => absurd h h64⟩
      · show (a.hi * 2 ^ n) % 2 ^ 64 ||| a.lo / 2 ^ (64 - n) < 2 ^ 64
        rw [hor]; exact hb
      · show ((a.hi * 2 ^ n) % 2 ^ 64 ||| a.lo / 2 ^ (64 - n)) * 2 ^ 64
            + (a.lo * 2 ^ n) % 2 ^ 64 = (value a * 2 ^ n) % 2 ^ 128
        rw [hor]; exact hs

/-- Right shift: the result exists, is well formed and denotes `value a / 2^n`. -/
theorem operator_shr_spec (a : uint128_t) (n : Nat) (ha : WF a) (hn : n ≤ 127) :
    ∃ r, operator_shr a (n : Int) = some r ∧ WF r ∧
      value r = value a / 2 ^ n ∧
      (n = 0 → r = a) ∧
      (64 ≤ n → r.hi = 0 ∧ r.lo = a.hi / 2 ^ (n - 64)) := by
  obtain ⟨hal, hah⟩ := ha
  rw [operator_shr_natCast a n hn]
  by_cases h0 : n = 0
  · subst h0
    refine ⟨a, by simp, ⟨hal, hah⟩, ?_, fun _ => rfl, fun h => absurd h (by omega)⟩
    rw [Nat.pow_zero, Nat.div_one]
  · rw [if_neg h0]
    by_cases h64 : 64 ≤ n
    · rw [if_pos h64]
      have hle : a.hi / 2 ^ (n - 64) ≤ a.hi := Nat.div_le_self _ _
      refine ⟨_, rfl, ⟨by show a.hi / 2 ^ (n - 64) < 2 ^ 64; omega, by show 0 < 2 ^ 64; omega⟩,
        ?_, fun h => absurd h h0, fun _ => ⟨rfl, rfl⟩⟩
      show 0 * 2 ^ 64 + a.hi / 2 ^ (n - 64) = (a.hi * 2 ^ 64 + a.lo) / 2 ^ n
      have e : 2 ^ n = 2 ^ 64 * 2 ^ (n - 64) := by
        rw [← Nat.pow_add]; congr 1; omega
      rw [e, ← Nat.div_div_eq_div_mul]
      have e2 : (a.hi * 2 ^ 64 + a.lo) / 2 ^ 64 = a.hi := by omega
      rw [e2]
      omega
    · rw [if_neg h64]
      have hPQ := two_pow_split n (by omega)
      have hQP : 2 ^ n * 2 ^ (64 - n) = 2 ^ 64 := by rw [Nat.mul_comm]; exact hPQ
      obtain ⟨hb, hs⟩ := shr_split a.hi a.lo (2 ^ n) (2 ^ (64 - n)) hPQ hal
      have hlt : a.lo / 2 ^ n < 2 ^ (64 - n) :=
        Nat.div_lt_of_lt_mul (by rw [hQP]; exact hal)
      have hor : a.lo / 2 ^ n ||| (a.hi * 2 ^ (64 - n)) % 2 ^ 64
          = a.lo / 2 ^ n + (a.hi * 2 ^ (64 - n)) % 2 ^ 64 := by
        rw [mul_mod_word a.hi _ _ hQP, Nat.lor_comm, Nat.add_comm]
        exact or_eq_add_of_lt _ _ (64 - n) hlt
      have hle : a.hi / 2 ^ n ≤ a.hi := Nat.div_le_self _ _
      refine ⟨_, rfl, ⟨?_, by show a.hi / 2 ^ n < 2 ^ 64; omega⟩, ?_,
        fun h => absurd h h0, fun h => absurd h h64⟩
      · show a.lo / 2 ^ n ||| (a.hi * 2 ^ (64 - n)) % 2 ^ 64 < 2 ^ 64
        rw [hor]; exact hb
      · show (a.hi / 2 ^ n) * 2 ^ 64 + (a.lo / 2 ^ n ||| (a.hi * 2 ^ (64 - n)) % 2 ^ 64)
            = value a / 2 ^ n
        rw [hor]; exact hs

/-- C5: for every 128-bit `a` and shift count `0 ≤ s ≤ 127`, `operator<<` returns a
result of value `(value a * 2^s) mod 2^128`; for `s = 0` the result is `a`, for
`s ≥ 64` its low word is `0` and its high word is `(a.lo * 2^(s-64)) mod 2^64`; and
`(lo = 1, hi = 0) << 64 = (lo = 0, hi = 1)`. -/
theorem C5_operator_shl_value (a : uint128_t) (s : Int) (ha : WF a)
    (h0 : 0 ≤ s) (h1 : s ≤ 127) :
    (∃ r, operator_shl a s = some r ∧
      value r = (value a * 2 ^ s.toNat) % 2 ^ 128 ∧
      (s = 0 → r = a) ∧
      (64 ≤ s → r.lo = 0 ∧ r.hi = (a.lo * 2 ^ (s - 64).toNat) % 2 ^ 64)) ∧
    operator_shl ⟨1, 0⟩ 64 = some ⟨0, 1⟩ := by
  refine ⟨?_, by decide⟩
  obtain ⟨n, rfl⟩ := Int.eq_ofNat_of_zero_le h0
  obtain ⟨r, hr, _, hv, hz, hbig⟩ := operator_shl_spec a n ha (by omega)
  refine ⟨r, hr, ?_, fun h => hz (by omega), fun h => ?_⟩
  · rw [Int.toNat_ofNat]; exact hv
  · have e : ((n : Int) - 64).toNat = n - 64 := by omega
    rw [e]
    exact hbig (by omega)

theorem C5_operator_shl_value_witness :
    (∃ r, operator_shl ⟨2 ^ 63 + 5, 3⟩ 65 = some r ∧
      value r = (value ⟨2 ^ 63 + 5, 3⟩ * 2 ^ (65 : Int).toNat) % 2 ^ 128 ∧
      ((65 : Int) = 0 → r = ⟨2 ^ 63 + 5, 3⟩) ∧
      ((64 : Int) ≤ 65 → r.lo = 0 ∧ r.hi = ((2 ^ 63 + 5) * 2 ^ ((65 : Int) - 64).toNat) % 2 ^ 64)) ∧
    operator_shl ⟨1, 0⟩ 64 = some ⟨0, 1⟩ :=
  C5_operator_shl_value ⟨2 ^ 63 + 5, 3⟩ 65 (by decide) (by decide) (by decide)

/-- C6: for every 128-bit `a` and shift count `0 ≤ s ≤ 127`, `operator>>` returns a
result of value `floor(value a / 2^s)` (zero filling); for `s = 0` the result is
`a`, for `s ≥ 64` its high word is `0` and its low word is `floor(a.hi / 2^(s-64))`;
and `(lo = 0, hi = 1) >> 64 = (lo = 1, hi = 0)`. -/
theorem C6_operator_shr_value (a : uint128_t) (s : Int) (ha : WF a)
    (h0 : 0 ≤ s) (h1 : s ≤ 127) :
    (∃ r, operator_shr a s = some r ∧
      value r = value a / 2 ^ s.toNat ∧
      (s = 0 → r = a) ∧
      (64 ≤ s → r.hi = 0 ∧ r.lo = a.hi / 2 ^ (s - 64).toNat)) ∧
    operator_shr ⟨0, 1⟩ 64 = some ⟨1, 0⟩ := by
  refine ⟨?_, by decide⟩
  obtain ⟨n, rfl⟩ := Int.eq_ofNat_of_zero_le h0
  obtain ⟨r, hr, _, hv, hz, hbig⟩ := operator_shr_spec a n ha (by omega)
  refine ⟨r, hr, ?_, fun h => hz (by omega), fun h => ?_⟩
  · rw [Int.toNat_ofNat]; exact hv
  · have e : ((n : Int) - 64).toNat = n - 64 := by omega
    rw [e]
    exact hbig (by omega)

theorem C6_operator_shr_value_witness :
    (∃ r, operator_shr ⟨2 ^ 63 + 5, 2 ^ 63 + 3⟩ 65 = some r ∧
      value r = value ⟨2 ^ 63 + 5, 2 ^ 63 + 3⟩ / 2 ^ (65 : Int).toNat ∧
      ((65 : Int) = 0 → r = ⟨2 ^ 63 + 5, 2 ^ 63 + 3⟩) ∧
      ((64 : Int) ≤ 65 → r.hi = 0 ∧ r.lo = (2 ^ 63 + 3) / 2 ^ ((65 : Int) - 64).toNat)) ∧
    operator_shr ⟨0, 1⟩ 64 = some ⟨1, 0⟩ :=
  C6_operator_shr_value ⟨2 ^ 63 + 5, 2 ^ 63 + 3⟩ 65 (by decide) (by decide) (by decide)

/-- C7: for every 128-bit `a` and shift count `0 ≤ s ≤ 127`, `(a << s) >> s` is
defined and is `a` with its top `s` bits cleared:
`value ((a << s) >> s) = value a mod 2^(128 - s)`. -/
theorem C7_shl_then_shr (a : uint128_t) (s : Int) (ha : WF a)
    (h0 : 0 ≤ s) (h1 : s ≤ 127) :
    ∃ r1 r2, operator_shl a s = some r1 ∧ operator_shr r1 s = some r2 ∧
      value r2 = value a % 2 ^ (128 - s).toNat := by
  obtain ⟨n, rfl⟩ := Int.eq_ofNat_of_zero_le h0
  have hn : n ≤ 127 := by omega
  obtain ⟨r1, hr1, hwf1, hv1, _, _⟩ := operator_shl_spec a n ha hn
  obtain ⟨r2, hr2, _, hv2, _, _⟩ := operator_shr_spec r1 n hwf1 hn
  refine ⟨r1, r2, hr1, hr2, ?_⟩
  have e : ((128 : Int) - (n : Int)).toNat = 128 - n := by omega
  have e2 : 2 ^ 128 = 2 ^ (128 - n) * 2 ^ n := by
    rw [← Nat.pow_add]; congr 1; omega
  rw [e, hv2, hv1, e2, Nat.mul_mod_mul_right, Nat.mul_div_cancel _ (Nat.pow_pos (by omega))]

theorem C7_shl_then_shr_witness :
    ∃ r1 r2, operator_shl ⟨2 ^ 63 + 5, 2 ^ 63 + 3⟩ 1 = some r1 ∧
      operator_shr r1 1 = some r2 ∧
      value r2 = value ⟨2 ^ 63 + 5, 2 ^ 63 + 3⟩ % 2 ^ ((128 : Int) - 1).toNat :=
  C7_shl_then_shr ⟨2 ^ 63 + 5, 2 ^ 63 + 3⟩ 1 (by decide) (by decide) (by decide)

/-! ## Multiplication and division by a 64-bit number -/

theorem value_native (a : uint128_t) : native a = value a := rfl

/-- In range for `_udiv128`: the quotient fits in 64 bits exactly when `hi < d`. -/
theorem hi_lt_of_quotient_fits (a : uint128_t) (r : Nat)
    (hr0 : 0 < r) (hq : value a / r < 2 ^ 64) : a.hi < r := by
  have h := (Nat.div_lt_iff_lt_mul hr0).1 hq
  simp only [value] at h
  omega

theorem _udiv128_of_fits (a : uint128_t) (r : Nat)
    (hr0 : 0 < r) (hq : value a / r < 2 ^ 64) :
    _udiv128 a.hi a.lo r = some (value a / r, value a % r) := by
  have hhi := hi_lt_of_quotient_fits a r hr0 hq
  unfold _udiv128
  rw [if_neg (by omega)]
  rfl

/-- C8 (counterexample): on the manual branch `(lo = 2, hi = 0) * 3` is
`(lo = 0, hi = 0)`, not `(lo = 6, hi = 0)`, and its value is not the product
modulo `2^128`. -/
theorem C8_manual_mul_counterexample :
    operator_mul .manual ⟨2, 0⟩ 3 = ⟨0, 0⟩ ∧
    operator_mul .manual ⟨2, 0⟩ 3 ≠ ⟨6, 0⟩ ∧
    value (operator_mul .manual ⟨2, 0⟩ 3) ≠ (value ⟨2, 0⟩ * 3) % 2 ^ 128 := by
  decide

/-- C8 (amended): on the native and the intrinsic branch, for every 128-bit `a` and
64-bit `r`, `operator*` returns the low 128 bits of the product,
`value (a * r) = (value a * r) mod 2^128`, with both words in range; and
`(lo = 2, hi = 0) * 3 = (lo = 6, hi = 0)`. -/
theorem C8_operator_mul_value (bk : Backend) (a : uint128_t) (r : Nat)
    (hbk : bk ≠ .manual) (ha : WF a) (hr : r < 2 ^ 64) :
    value (operator_mul bk a r) = (value a * r) % 2 ^ 128 ∧
    WF (operator_mul bk a r) ∧
    operator_mul bk ⟨2, 0⟩ 3 = ⟨6, 0⟩ := by
  have _ := ha
  have _ := hr
  cases bk
  · refine ⟨?_, WF_ofNative _, by decide⟩
    simp only [operator_mul]
    rw [value_ofNative, value_native, Nat.mod_mod]
  · refine ⟨?_, ?_, by decide⟩
    · simp only [operator_mul, _umul128, value]
      have e : (a.hi * 2 ^ 64 + a.lo) * r = (a.hi * r) * 2 ^ 64 + a.lo * r := by ring
      rw [e]
      generalize a.hi * r = H
      generalize a.lo * r = L
      omega
    · simp only [operator_mul, _umul128, WF]
      omega
  · exact absurd rfl hbk

theorem C8_operator_mul_value_witness :
    value (operator_mul .intrinsic ⟨2 ^ 63, 2 ^ 63 + 1⟩ 6)
        = (value ⟨2 ^ 63, 2 ^ 63 + 1⟩ * 6) % 2 ^ 128 ∧
    WF (operator_mul .intrinsic ⟨2 ^ 63, 2 ^ 63 + 1⟩ 6) ∧
    operator_mul .intrinsic ⟨2, 0⟩ 3 = ⟨6, 0⟩ :=
  C8_operator_mul_value .intrinsic ⟨2 ^ 63, 2 ^ 63 + 1⟩ 6 (by decide) (by decide) (by decide)

/-- C9 (counterexample): on the manual branch `(lo = 10, hi = 0) / 3` and
`(lo = 10, hi = 0) % 3` are both `0`, so `q * r + m = 0`, not `10`. -/
theorem C9_manual_div_counterexample :
    operator_div .manual ⟨10, 0⟩ 3 = some 0 ∧
    operator_mod .manual ⟨10, 0⟩ 3 = some 0 ∧
    ¬ ∃ q m, operator_div .manual ⟨10, 0⟩ 3 = some q ∧
        operator_mod .manual ⟨10, 0⟩ 3 = some m ∧ q * 3 + m = value ⟨10, 0⟩ := by
  refine ⟨rfl, rfl, ?_⟩
  rintro ⟨q, m, hq, hm, h⟩
  have hq0 : q = 0 := (Option.some.inj hq).symm
  have hm0 : m = 0 := (Option.some.inj hm).symm
  subst hq0 hm0
  revert h
  decide

/-- C9 (amended): on the native and the intrinsic branch, for every 128-bit `a` and
64-bit `r > 0` with `floor(value a / r) < 2^64`, `a / r` returns
`q = floor(value a / r)` and `a % r` returns `m = value a mod r`, so that
`q * r + m = value a` and `m < r`; and `(lo = 10, hi = 0) / 3 = 3`,
`(lo = 10, hi = 0) % 3 = 1`. -/
theorem C9_operator_div_mod (bk : Backend) (a : uint128_t) (r : Nat)
    (hbk : bk ≠ .manual) (ha : WF a) (hr : r < 2 ^ 64) (hr0 : 0 < r)
    (hq : value a / r < 2 ^ 64) :
    (∃ q m, operator_div bk a r = some q ∧ operator_mod bk a r = some m ∧
      q * r + m = value a ∧ m < r ∧ q = value a / r ∧ m = value a % r) ∧
    operator_div bk ⟨10, 0⟩ 3 = some 3 ∧ operator_mod bk ⟨10, 0⟩ 3 = some 1 := by
  have _ := ha
  have hmlt : value a % r < r := Nat.mod_lt _ hr0
  have hsum : value a / r * r + value a % r = value a := Nat.div_add_mod' _ _
  cases bk
  · refine ⟨⟨value a / r, value a % r, ?_, ?_, hsum, hmlt, rfl, rfl⟩, by decide, by decide⟩
    · simp only [operator_div]
      rw [if_neg (by omega), value_native, Nat.mod_eq_of_lt hq]
    · simp only [operator_mod]
      rw [if_neg (by omega), value_native, Nat.mod_eq_of_lt (by omega)]
  · refine ⟨⟨value a / r, value a % r, ?_, ?_, hsum, hmlt, rfl, rfl⟩, by decide, by decide⟩
    · simp only [operator_div]
      rw [_udiv128_of_fits a r hr0 hq]
      rfl
    · simp only [operator_mod]
      rw [_udiv128_of_fits a r hr0 hq]
      rfl
  · exact absurd rfl hbk

theorem C9_operator_div_mod_witness :
    (∃ q m, operator_div .intrinsic ⟨7, 2⟩ 5 = some q ∧
      operator_mod .intrinsic ⟨7, 2⟩ 5 = some m ∧
      q * 5 + m = value ⟨7, 2⟩ ∧ m < 5 ∧ q = value ⟨7, 2⟩ / 5 ∧ m = value ⟨7, 2⟩ % 5) ∧
    operator_div .intrinsic ⟨10, 0⟩ 3 = some 3 ∧
    operator_mod .intrinsic ⟨10, 0⟩ 3 = some 1 :=
  C9_operator_div_mod .intrinsic ⟨7, 2⟩ 5 (by decide) (by decide) (by decide) (by decide)
    (by decide)

/-- C10 (counterexample): on the manual branch, with the out-parameter holding `7` on
entry, `(lo = 10, hi = 0).divmod(rem, 3)` returns `0` and leaves `rem = 7`, whereas
`(lo = 10, hi = 0) % 3` is `0`. -/
theorem C10_manual_divmod_counterexample :
    divmod .manual ⟨10, 0⟩ 7 3 = some (0, 7) ∧
    operator_mod .manual ⟨10, 0⟩ 3 = some 0 ∧
    ¬ ∃ q m, divmod .manual ⟨10, 0⟩ 7 3 = some (q, m) ∧
        operator_div .manual ⟨10, 0⟩ 3 = some q ∧
        operator_mod .manual ⟨10, 0⟩ 3 = some m := by
  refine ⟨rfl, rfl, ?_⟩
  rintro ⟨q, m, hd, _, hm⟩
  have h1 : (0, 7) = (q, m) := Option.some.inj hd
  have h2 : 0 = m := Option.some.inj hm
  have h3 : 7 = m := congrArg Prod.snd h1
  omega

/-- C10 (amended): for every 128-bit `a`, every 64-bit `r > 0` with the quotient
fitting in 64 bits and every initial content `rem` of the out-parameter,
`a.divmod(rem, r)` returns the same quotient as `a / r` on every branch; on the
native and the intrinsic branch it leaves the out-parameter equal to `a % r`. -/
theorem C10_divmod_agrees (bk : Backend) (a : uint128_t) (rem r : Nat)
    (ha : WF a) (hrem : rem < 2 ^ 64) (hr : r < 2 ^ 64) (hr0 : 0 < r)
    (hq : value a / r < 2 ^ 64) :
    ∃ q m, divmod bk a rem r = some (q, m) ∧
      operator_div bk a r = some q ∧
      (bk ≠ .manual → operator_mod bk a r = some m) := by
  have _ := ha
  have _ := hrem
  have _ := hr
  cases bk
  · refine ⟨(native a / r) % 2 ^ 64, (native a % r) % 2 ^ 64, ?_, ?_, fun _ => ?_⟩
    · simp only [divmod]; rw [if_neg (by omega)]
    · simp only [operator_div]; rw [if_neg (by omega)]
    · simp only [operator_mod]; rw [if_neg (by omega)]
  · refine ⟨value a / r, value a % r, ?_, ?_, fun _ => ?_⟩
    · simp only [divmod]; exact _udiv128_of_fits a r hr0 hq
    · simp only [operator_div]; rw [_udiv128_of_fits a r hr0 hq]; rfl
    · simp only [operator_mod]; rw [_udiv128_of_fits a r hr0 hq]; rfl
  · exact ⟨0, rem, rfl, rfl, fun h => absurd rfl h⟩

theorem C10_divmod_agrees_witness :
    ∃ q m, divmod .intrinsic ⟨7, 2⟩ 9 5 = some (q, m) ∧
      operator_div .intrinsic ⟨7, 2⟩ 5 = some q ∧
      (Backend.intrinsic ≠ .manual → operator_mod .intrinsic ⟨7, 2⟩ 5 = some m) :=
  C10_divmod_agrees .intrinsic ⟨7, 2⟩ 9 5 (by decide) (by decide) (by decide) (by decide)
    (by decide)

/-! ## Construction and conversion -/

/-- C11: the conversion to `uint64_t` returns the low word and ignores the high
word: for all 64-bit `lo` and `hi`, `uint64_t(uint128_t(lo, hi)) = lo`, which is the
value modulo `2^64`; hence `uint64_t(uint128_t(v)) = v` for every 64-bit `v`; and
`(lo = 42, hi = 99)` converts to `42`. -/
theorem C11_toUInt64_low_word (lo hi v : Nat)
    (hlo : lo < 2 ^ 64) (hhi : hi < 2 ^ 64) (hv : v < 2 ^ 64) :
    toUInt64 (ctor2 lo hi) = lo ∧
    toUInt64 (ctor2 lo hi) = value (ctor2 lo hi) % 2 ^ 64 ∧
    toUInt64 (ctor1 v) = v ∧
    toUInt64 (ctor2 42 99) = 42 := by
  have _ := hhi
  have _ := hv
  refine ⟨rfl, ?_, rfl, rfl⟩
  simp only [toUInt64, ctor2, value]
  omega

theorem C11_toUInt64_low_word_witness :
    toUInt64 (ctor2 42 99) = 42 ∧
    toUInt64 (ctor2 42 99) = value (ctor2 42 99) % 2 ^ 64 ∧
    toUInt64 (ctor1 7) = 7 ∧
    toUInt64 (ctor2 42 99) = 42 :=
  C11_toUInt64_low_word 42 99 7 (by decide) (by decide) (by decide)

/-- C12: the constructors are total and denote the expected values: the default
constructor gives `lo = 0`, `hi = 0` (value `0`); construction from one 64-bit `v`
gives `lo = v`, `hi = 0` (value `v`); construction from a pair stores exactly the
two words (value `hi * 2^64 + lo`). -/
theorem C12_constructors (v lo_ hi_ : Nat) :
    (ctor0.lo = 0 ∧ ctor0.hi = 0 ∧ value ctor0 = 0) ∧
    ((ctor1 v).lo = v ∧ (ctor1 v).hi = 0 ∧ value (ctor1 v) = v) ∧
    ((ctor2 lo_ hi_).lo = lo_ ∧ (ctor2 lo_ hi_).hi = hi_ ∧
      value (ctor2 lo_ hi_) = hi_ * 2 ^ 64 + lo_) := by
  refine ⟨⟨rfl, rfl, rfl⟩, ⟨rfl, rfl, ?_⟩, ⟨rfl, rfl, rfl⟩⟩
  simp only [value, ctor1]
  omega

/-- C13: carry propagation scenario, on every branch of `operator+`:
`(lo = 0xFFFFFFFFFFFFFFFF, hi = 0) + (lo = 1, hi = 0) = (lo = 0, hi = 1)`. -/
theorem C13_add_carry_scenario (bk : Backend) :
    operator_add bk (ctor2 0xFFFFFFFFFFFFFFFF 0) (ctor2 1 0) = ctor2 0 1 := by
  cases bk <;> decide

/-- Value and words of the intrinsic branch of `operator*`. -/
theorem operator_mul_intrinsic (a : uint128_t) (r : Nat) :
    (operator_mul .intrinsic a r).lo = (a.lo * r) % 2 ^ 64 ∧
    (operator_mul .intrinsic a r).hi
      = ((a.lo * r) / 2 ^ 64 + (a.hi * r) % 2 ^ 64) % 2 ^ 64 ∧
    value (operator_mul .intrinsic a r) = (value a * r) % 2 ^ 128 := by
  refine ⟨rfl, ?_, ?_⟩
  · simp only [operator_mul, _umul128]
    omega
  · simp only [operator_mul, _umul128, value]
    have e : (a.hi * 2 ^ 64 + a.lo) * r = (a.hi * r) * 2 ^ 64 + a.lo * r := by ring
    rw [e]
    generalize a.hi * r = H
    generalize a.lo * r = L
    omega

/-- C14: on the intrinsic branch, with `_umul128(x, y, &h)` returning the low 64 bits
of `x * y` and storing its high 64 bits, for every 128-bit `a` and 64-bit `r`
`operator*` gives `lo = low64(a.lo * r)` and
`hi = (high64(a.lo * r) + low64(a.hi * r)) mod 2^64`, and the result has value
`(value a * r) mod 2^128`. -/
theorem C14_operator_mul_intrinsic (a : uint128_t) (r : Nat)
    (ha : WF a) (hr : r < 2 ^ 64) :
    (_umul128 a.lo r = ((a.lo * r) % 2 ^ 64, (a.lo * r) / 2 ^ 64)) ∧
    (operator_mul .intrinsic a r).lo = (_umul128 a.lo r).1 ∧
    (operator_mul .intrinsic a r).hi
      = ((_umul128 a.lo r).2 + (_umul128 a.hi r).1) % 2 ^ 64 ∧
    (operator_mul .intrinsic a r).lo = (a.lo * r) % 2 ^ 64 ∧
    (operator_mul .intrinsic a r).hi
      = ((a.lo * r) / 2 ^ 64 + (a.hi * r) % 2 ^ 64) % 2 ^ 64 ∧
    value (operator_mul .intrinsic a r) = (value a * r) % 2 ^ 128 := by
  obtain ⟨hal, _⟩ := ha
  obtain ⟨h1, h2, h3⟩ := operator_mul_intrinsic a r
  have hprod : a.lo * r < 2 ^ 64 * 2 ^ 64 := Nat.mul_lt_mul'' hal hr
  have hhigh : (a.lo * r) / 2 ^ 64 < 2 ^ 64 := Nat.div_lt_of_lt_mul hprod
  refine ⟨?_, rfl, rfl, h1, h2, h3⟩
  simp only [_umul128]
  rw [Nat.mod_eq_of_lt hhigh]

theorem C14_operator_mul_intrinsic_witness :
    (_umul128 (2 ^ 63) 6 = (((2 ^ 63) * 6) % 2 ^ 64, ((2 ^ 63) * 6) / 2 ^ 64)) ∧
    (operator_mul .intrinsic ⟨2 ^ 63, 2 ^ 63 + 1⟩ 6).lo = (_umul128 (2 ^ 63) 6).1 ∧
    (operator_mul .intrinsic ⟨2 ^ 63, 2 ^ 63 + 1⟩ 6).hi
      = ((_umul128 (2 ^ 63) 6).2 + (_umul128 (2 ^ 63 + 1) 6).1) % 2 ^ 64 ∧
    (operator_mul .intrinsic ⟨2 ^ 63, 2 ^ 63 + 1⟩ 6).lo = ((2 ^ 63) * 6) % 2 ^ 64 ∧
    (operator_mul .intrinsic ⟨2 ^ 63, 2 ^ 63 + 1⟩ 6).hi
      = (((2 ^ 63) * 6) / 2 ^ 64 + ((2 ^ 63 + 1) * 6) % 2 ^ 64) % 2 ^ 64 ∧
    value (operator_mul .intrinsic ⟨2 ^ 63, 2 ^ 63 + 1⟩ 6)
      = (value ⟨2 ^ 63, 2 ^ 63 + 1⟩ * 6) % 2 ^ 128 :=
  C14_operator_mul_intrinsic ⟨2 ^ 63, 2 ^ 63 + 1⟩ 6 (by decide) (by decide)

/-- C15: on the manual branch the hook `exception()` does nothing and the
unimplemented operations return their zero-initialised result for every input,
`r = 0` included: `a * r = (lo = 0, hi = 0)`, `a / r = 0`, `a % r = 0`; none of them
is undefined. -/
theorem C15_manual_unimplemented (a : uint128_t) (r : Nat) :
    exception = () ∧
    operator_mul .manual a r = ctor2 0 0 ∧
    operator_div .manual a r = some 0 ∧
    operator_mod .manual a r = some 0 ∧
    operator_div .manual a 0 = some 0 ∧
    operator_mod .manual a 0 = some 0 :=
  ⟨rfl, rfl, rfl, rfl, rfl, rfl⟩

/-- C16: on the manual branch `a.divmod(rem, r)` returns `0` and leaves the
out-parameter as the caller passed it, for every `a`, `r` and initial `rem`. -/
theorem C16_manual_divmod_frame (a : uint128_t) (rem r : Nat) :
    divmod .manual a rem r = some (0, rem) :=
  rfl

/-! ## Shift counts -/

theorem shl64_isSome (x : Nat) (n : Int) :
    (shl64 x n).isSome = true ↔ 0 ≤ n ∧ n < 64 := by
  unfold shl64
  by_cases h : 0 ≤ n ∧ n < 64
  · rw [if_pos h]; simp [h]
  · rw [if_neg h]; simp [h]

theorem shr64_isSome (x : Nat) (n : Int) :
    (shr64 x n).isSome = true ↔ 0 ≤ n ∧ n < 64 := by
  unfold shr64
  by_cases h : 0 ≤ n ∧ n < 64
  · rw [if_pos h]; simp [h]
  · rw [if_neg h]; simp [h]

theorem bind_isSome_iff {α β : Type} (o : Option α) (f : α → Option β) :
    (o.bind f).isSome = true ↔ ∃ x, o = some x ∧ (f x).isSome = true := by
  cases o <;> simp

/-- For every shift count, `operator<<` is defined exactly when all the 64-bit shifts
of its branch have a count in `[0, 63]`. -/
theorem operator_shl_isSome_iff (a : uint128_t) (s : Int) :
    (operator_shl a s).isSome = true ↔ ∀ c ∈ operator_shl_counts s, 0 ≤ c ∧ c < 64 := by
  unfold operator_shl operator_shl_counts
  by_cases h0 : s = 0
  · rw [if_pos h0, if_pos h0]; simp
  · rw [if_neg h0, if_neg h0]
    by_cases h64 : s ≥ storage_bits_
    · rw [if_pos h64, if_pos h64, bind_isSome_iff]
      constructor
      · rintro ⟨x, hx, _⟩ c hc
        have hs : (shl64 a.lo (s - storage_bits_)).isSome = true := by rw [hx]; rfl
        rw [List.mem_singleton] at hc
        subst hc
        exact (shl64_isSome _ _).1 hs
      · intro h
        have hs := (shl64_isSome a.lo _).2 (h _ (List.mem_singleton.2 rfl))
        obtain ⟨x, hx⟩ := Option.isSome_iff_exists.1 hs
        exact ⟨x, hx, rfl⟩
    · rw [if_neg h64, if_neg h64, bind_isSome_iff]
      constructor
      · rintro ⟨x, hx, hrest⟩ c hc
        rw [bind_isSome_iff] at hrest
        obtain ⟨y, _, hrest2⟩ := hrest
        rw [bind_isSome_iff] at hrest2
        obtain ⟨z, hz, _⟩ := hrest2
        have hs1 : (shl64 a.lo s).isSome = true := by rw [hx]; rfl
        have hs2 : (shr64 a.lo (storage_bits_ - s)).isSome = true := by rw [hz]; rfl
        have r1 := (shl64_isSome _ _).1 hs1
        have r2 := (shr64_isSome _ _).1 hs2
        simp only [List.mem_cons, List.mem_singleton, List.not_mem_nil, or_false] at hc
        rcases hc with rfl | rfl | rfl
        · exact r1
        · exact r1
        · exact r2
      · intro h
        have r1 := h s (by simp)
        have r2 := h (storage_bits_ - s) (by simp)
        obtain ⟨x, hx⟩ := Option.isSome_iff_exists.1 ((shl64_isSome a.lo s).2 r1)
        obtain ⟨y, hy⟩ := Option.isSome_iff_exists.1 ((shl64_isSome a.hi s).2 r1)
        obtain ⟨z, hz⟩ := Option.isSome_iff_exists.1 ((shr64_isSome a.lo _).2 r2)
        refine ⟨x, hx, ?_⟩
        rw [hy, hz]
        rfl

/-- For every shift count, `operator>>` is defined exactly when all the 64-bit shifts
of its branch have a count in `[0, 63]`. -/
theorem operator_shr_isSome_iff (a : uint128_t) (s : Int) :
    (operator_shr a s).isSome = true ↔ ∀ c ∈ operator_shr_counts s, 0 ≤ c ∧ c < 64 := by
  unfold operator_shr operator_shr_counts
  by_cases h0 : s = 0
  · rw [if_pos h0, if_pos h0]; simp
  · rw [if_neg h0, if_neg h0]
    by_cases h64 : s ≥ storage_bits_
    · rw [if_pos h64, if_pos h64, bind_isSome_iff]
      constructor
      · rintro ⟨x, hx, _⟩ c hc
        have hs : (shr64 a.hi (s - storage_bits_)).isSome = true := by rw [hx]; rfl
        rw [List.mem_singleton] at hc
        subst hc
        exact (shr64_isSome _ _).1 hs
      · intro h
        have hs := (shr64_isSome a.hi _).2 (h _ (List.mem_singleton.2 rfl))
        obtain ⟨x, hx⟩ := Option.isSome_iff_exists.1 hs
        exact ⟨x, hx, rfl⟩
    · rw [if_neg h64, if_neg h64, bind_isSome_iff]
      constructor
      · rintro ⟨x, hx, hrest⟩ c hc
        rw [bind_isSome_iff] at hrest
        obtain ⟨y, hy, _⟩ := hrest
        have hs1 : (shr64 a.lo s).isSome = true := by rw [hx]; rfl
        have hs2 : (shl64 a.hi (storage_bits_ - s)).isSome = true := by rw [hy]; rfl
        have r1 := (shr64_isSome _ _).1 hs1
        have r2 := (shl64_isSome _ _).1 hs2
        simp only [List.mem_cons, List.mem_singleton, List.not_mem_nil, or_false] at hc
        rcases hc with rfl | rfl | rfl
        · exact r1
        · exact r2
        · exact r1
      · intro h
        have r1 := h s (by simp)
        have r2 := h (storage_bits_ - s) (by simp)
        obtain ⟨x, hx⟩ := Option.isSome_iff_exists.1 ((shr64_isSome a.lo s).2 r1)
        obtain ⟨y, hy⟩ := Option.isSome_iff_exists.1 ((shl64_isSome a.hi _).2 r2)
        obtain ⟨z, hz⟩ := Option.isSome_iff_exists.1 ((shr64_isSome a.hi s).2 r1)
        refine ⟨x, hx, ?_⟩
        rw [hy, hz]
        rfl

/-- The shift counts of each branch of `operator<<`, for a count in `[0, 127]`, lie
in `[0, 63]`. -/
theorem operator_shl_counts_range (s : Int) (h0 : 0 ≤ s) (h1 : s ≤ 127) :
    ∀ c ∈ operator_shl_counts s, 0 ≤ c ∧ c < 64 := by
  unfold operator_shl_counts storage_bits_
  intro c hc
  by_cases hz : s = 0
  · rw [if_pos hz] at hc; simp at hc
  · rw [if_neg hz] at hc
    by_cases h64 : s ≥ 64
    · rw [if_pos h64] at hc
      simp only [List.mem_singleton] at hc
      omega
    · rw [if_neg h64] at hc
      simp only [List.mem_cons, List.mem_singleton, List.not_mem_nil, or_false] at hc
      omega

/-- The shift counts of each branch of `operator>>`, for a count in `[0, 127]`, lie
in `[0, 63]`. -/
theorem operator_shr_counts_range (s : Int) (h0 : 0 ≤ s) (h1 : s ≤ 127) :
    ∀ c ∈ operator_shr_counts s, 0 ≤ c ∧ c < 64 := by
  unfold operator_shr_counts storage_bits_
  intro c hc
  by_cases hz : s = 0
  · rw [if_pos hz] at hc; simp at hc
  · rw [if_neg hz] at hc
    by_cases h64 : s ≥ 64
    · rw [if_pos h64] at hc
      simp only [List.mem_singleton] at hc
      omega
    · rw [if_neg h64] at hc
      simp only [List.mem_cons, List.mem_singleton, List.not_mem_nil, or_false] at hc
      omega

/-- C17: for every shift count `0 ≤ s ≤ 127`, every 64-bit shift evaluated by
`operator<<` and by `operator>>` has a count in `[0, 63]` (none for `s = 0`; `s` and
`64 - s` for `1 ≤ s ≤ 63`; `s - 64` for `s ≥ 64`), so both operators are defined:
no out-of-range 64-bit shift is reached. -/
theorem C17_shift_counts_in_range (a : uint128_t) (s : Int) (h0 : 0 ≤ s) (h1 : s ≤ 127) :
    (∀ c ∈ operator_shl_counts s, 0 ≤ c ∧ c ≤ 63) ∧
    (∀ c ∈ operator_shr_counts s, 0 ≤ c ∧ c ≤ 63) ∧
    (operator_shl a s).isSome = true ∧
    (operator_shr a s).isSome = true ∧
    (s = 0 → operator_shl_counts s = [] ∧ operator_shr_counts s = []) ∧
    (1 ≤ s → s ≤ 63 →
      operator_shl_counts s = [s, s, 64 - s] ∧ operator_shr_counts s = [s, 64 - s, s]) ∧
    (64 ≤ s → operator_shl_counts s = [s - 64] ∧ operator_shr_counts s = [s - 64]) := by
  have hl := operator_shl_counts_range s h0 h1
  have hr := operator_shr_counts_range s h0 h1
  refine ⟨fun c hc => ?_, fun c hc => ?_, (operator_shl_isSome_iff a s).2 hl,
    (operator_shr_isSome_iff a s).2 hr, fun hz => ?_, fun h1 h63 => ?_, fun h64 => ?_⟩
  · have := hl c hc; omega
  · have := hr c hc; omega
  · subst hz; exact ⟨rfl, rfl⟩
  · have hz : ¬ s = 0 := by omega
    have hn : ¬ s ≥ storage_bits_ := by unfold storage_bits_; omega
    unfold operator_shl_counts operator_shr_counts
    rw [if_neg hz, if_neg hn, if_neg hz, if_neg hn]
    exact ⟨rfl, rfl⟩
  · have hz : ¬ s = 0 := by omega
    have hn : s ≥ storage_bits_ := by unfold storage_bits_; omega
    unfold operator_shl_counts operator_shr_counts
    rw [if_neg hz, if_pos hn, if_neg hz, if_pos hn]
    exact ⟨rfl, rfl⟩

theorem C17_shift_counts_in_range_witness :
    (∀ c ∈ operator_shl_counts 63, 0 ≤ c ∧ c ≤ 63) ∧
    (∀ c ∈ operator_shr_counts 63, 0 ≤ c ∧ c ≤ 63) ∧
    (operator_shl ⟨5, 9⟩ 63).isSome = true ∧
    (operator_shr ⟨5, 9⟩ 63).isSome = true ∧
    ((63 : Int) = 0 → operator_shl_counts 63 = [] ∧ operator_shr_counts 63 = []) ∧
    ((1 : Int) ≤ 63 → (63 : Int) ≤ 63 →
      operator_shl_counts 63 = [63, 63, 64 - 63] ∧
      operator_shr_counts 63 = [63, 64 - 63, 63]) ∧
    ((64 : Int) ≤ 63 → operator_shl_counts 63 = [63 - 64] ∧
      operator_shr_counts 63 = [63 - 64]) :=
  C17_shift_counts_in_range ⟨5, 9⟩ 63 (by decide) (by decide)

/-! ## Identities of addition and shifts -/

theorem ofNative_value (a : uint128_t) (ha : WF a) : ofNative (value a) = a := by
  obtain ⟨hl, hh⟩ := ha
  cases a with
  | mk lo hi =>
    simp only [ofNative, value, uint128_t.mk.injEq] at *
    constructor <;> omega

/-- Well-formed values are determined by the number they denote. -/
theorem eq_of_value_eq (x y : uint128_t) (hx : WF x) (hy : WF y)
    (h : value x = value y) : x = y := by
  rw [← ofNative_value x hx, ← ofNative_value y hy, h]

/-- C18: zero is a two-sided identity of `operator+` and a right identity of
`operator-`, on every branch: for every 128-bit `a`, `a + uint128_t() == a`,
`uint128_t() + a == a` and `a - uint128_t() == a`. -/
theorem C18_zero_identity (bk : Backend) (a : uint128_t) (ha : WF a) :
    operator_add bk a ctor0 = a ∧
    operator_add bk ctor0 a = a ∧
    operator_sub bk a ctor0 = a := by
  have hz : WF ctor0 := by decide
  have c1 := add_carry_term a ctor0 ha hz
  have c2 := add_carry_term ctor0 a hz ha
  have hv := value_lt a ha
  have hof := ofNative_value a ha
  obtain ⟨hl, hh⟩ := ha
  have e1 : ctor0.lo = 0 := rfl
  have e2 : ctor0.hi = 0 := rfl
  rw [e1] at c1 c2
  rw [if_neg (by omega)] at c1 c2
  have hb : b2n (((0 : Nat) != 0) && decide (sub64 a.lo 0 > a.lo)) = 0 := rfl
  cases bk
  · have n0 : native ctor0 = 0 := rfl
    simp only [operator_add, operator_sub, n0, value_native]
    refine ⟨?_, ?_, ?_⟩
    · rw [Nat.add_zero, Nat.mod_eq_of_lt hv]; exact hof
    · rw [Nat.zero_add, Nat.mod_eq_of_lt hv]; exact hof
    · have e : (value a + (2 ^ 128 - 0 % 2 ^ 128)) % 2 ^ 128 = value a := by omega
      rw [e]; exact hof
  · simp only [operator_add, operator_sub, e1, e2, c1, c2, hb]
    cases a with
    | mk lo hi =>
      simp only [uint128_t.mk.injEq, sub64] at *
      omega
  · simp only [operator_add, operator_sub, e1, e2, c1, c2, hb]
    cases a with
    | mk lo hi =>
      simp only [uint128_t.mk.injEq, sub64] at *
      omega

theorem C18_zero_identity_witness :
    operator_add .manual ⟨2 ^ 64 - 1, 7⟩ ctor0 = ⟨2 ^ 64 - 1, 7⟩ ∧
    operator_add .manual ctor0 ⟨2 ^ 64 - 1, 7⟩ = ⟨2 ^ 64 - 1, 7⟩ ∧
    operator_sub .manual ⟨2 ^ 64 - 1, 7⟩ ctor0 = ⟨2 ^ 64 - 1, 7⟩ :=
  C18_zero_identity .manual ⟨2 ^ 64 - 1, 7⟩ (by decide)

/-- C19: for all 128-bit `a` and `b` whose low words do not carry
(`a.lo + b.lo < 2^64`), `operator+` returns the sum modulo `2^128` on every branch:
`value (a + b) = (value a + value b) mod 2^128`. -/
theorem C19_add_without_carry (bk : Backend) (a b : uint128_t)
    (ha : WF a) (hb : WF b) (hnc : a.lo + b.lo < 2 ^ 64) :
    value (operator_add bk a b) = (value a + value b) % 2 ^ 128 := by
  by_cases hbk : bk = .native
  · subst hbk
    simp only [operator_add]
    rw [value_ofNative, value_native, value_native, Nat.mod_mod]
  · rw [operator_add_two_word_value bk a b hbk ha hb, if_neg (by omega), Nat.sub_zero]

theorem C19_add_without_carry_witness :
    value (operator_add .manual ⟨2 ^ 63, 2 ^ 64 - 1⟩ ⟨2 ^ 63 - 1, 3⟩)
      = (value ⟨2 ^ 63, 2 ^ 64 - 1⟩ + value ⟨2 ^ 63 - 1, 3⟩) % 2 ^ 128 :=
  C19_add_without_carry .manual ⟨2 ^ 63, 2 ^ 64 - 1⟩ ⟨2 ^ 63 - 1, 3⟩
    (by decide) (by decide) (by decide)

/-- C20: shifts compose additively inside the defined domain: for every 128-bit `a`
and all `s, t ≥ 0` with `s + t ≤ 127`, `(a << s) << t == a << (s + t)` and
`(a >> s) >> t == a >> (s + t)`, all of them defined (also when `s, t < 64 ≤ s + t`). -/
theorem C20_shift_compose (a : uint128_t) (s t : Int) (ha : WF a)
    (hs : 0 ≤ s) (ht : 0 ≤ t) (hst : s + t ≤ 127) :
    (∃ r1 r2, operator_shl a s = some r1 ∧ operator_shl r1 t = some r2 ∧
      operator_shl a (s + t) = some r2) ∧
    (∃ r1 r2, operator_shr a s = some r1 ∧ operator_shr r1 t = some r2 ∧
      operator_shr a (s + t) = some r2) := by
  obtain ⟨n, rfl⟩ := Int.eq_ofNat_of_zero_le hs
  obtain ⟨m, rfl⟩ := Int.eq_ofNat_of_zero_le ht
  have hn : n ≤ 127 := by omega
  have hm : m ≤ 127 := by omega
  have hnm : n + m ≤ 127 := by omega
  have ecast : ((n : Int) + (m : Int)) = ((n + m : Nat) : Int) := by omega
  rw [ecast]
  constructor
  · obtain ⟨r1, hr1, hwf1, hv1, _, _⟩ := operator_shl_spec a n ha hn
    obtain ⟨r2, hr2, hwf2, hv2, _, _⟩ := operator_shl_spec r1 m hwf1 hm
    obtain ⟨r3, hr3, hwf3, hv3, _, _⟩ := operator_shl_spec a (n + m) ha hnm
    refine ⟨r1, r2, hr1, hr2, ?_⟩
    rw [hr3]
    congr 1
    apply eq_of_value_eq r3 r2 hwf3 hwf2
    rw [hv3, hv2, hv1, Nat.mod_mul_mod, Nat.mul_assoc, ← Nat.pow_add]
  · obtain ⟨r1, hr1, hwf1, hv1, _, _⟩ := operator_shr_spec a n ha hn
    obtain ⟨r2, hr2, hwf2, hv2, _, _⟩ := operator_shr_spec r1 m hwf1 hm
    obtain ⟨r3, hr3, hwf3, hv3, _, _⟩ := operator_shr_spec a (n + m) ha hnm
    refine ⟨r1, r2, hr1, hr2, ?_⟩
    rw [hr3]
    congr 1
    apply eq_of_value_eq r3 r2 hwf3 hwf2
    rw [hv3, hv2, hv1, Nat.div_div_eq_div_mul, ← Nat.pow_add]

theorem C20_shift_compose_witness :
    (∃ r1 r2, operator_shl ⟨2 ^ 63 + 5, 3⟩ 40 = some r1 ∧ operator_shl r1 30 = some r2 ∧
      operator_shl ⟨2 ^ 63 + 5, 3⟩ (40 + 30) = some r2) ∧
    (∃ r1 r2, operator_shr ⟨2 ^ 63 + 5, 3⟩ 40 = some r1 ∧ operator_shr r1 30 = some r2 ∧
      operator_shr ⟨2 ^ 63 + 5, 3⟩ (40 + 30) = some r2) :=
  C20_shift_compose ⟨2 ^ 63 + 5, 3⟩ 40 30 (by decide) (by decide) (by decide) (by decide)

/-- C21: for every 128-bit `a` and shift count `0 ≤ s ≤ 127`, `(a >> s) << s` is
defined and is `a` with its low `s` bits cleared:
`value ((a >> s) << s) = value a - (value a mod 2^s)`. -/
theorem C21_shr_then_shl (a : uint128_t) (s : Int) (ha : WF a)
    (h0 : 0 ≤ s) (h1 : s ≤ 127) :
    ∃ r1 r2, operator_shr a s = some r1 ∧ operator_shl r1 s = some r2 ∧
      value r2 = value a - value a % 2 ^ s.toNat := by
  obtain ⟨n, rfl⟩ := Int.eq_ofNat_of_zero_le h0
  have hn : n ≤ 127 := by omega
  have hv := value_lt a ha
  obtain ⟨r1, hr1, hwf1, hv1, _, _⟩ := operator_shr_spec a n ha hn
  obtain ⟨r2, hr2, _, hv2, _, _⟩ := operator_shl_spec r1 n hwf1 hn
  refine ⟨r1, r2, hr1, hr2, ?_⟩
  have hdm : value a / 2 ^ n * 2 ^ n + value a % 2 ^ n = value a := Nat.div_add_mod' _ _
  have hle : value a / 2 ^ n * 2 ^ n ≤ value a := Nat.div_mul_le_self _ _
  rw [Int.toNat_ofNat, hv2, hv1, Nat.mod_eq_of_lt (by omega)]
  omega

theorem C21_shr_then_shl_witness :
    ∃ r1 r2, operator_shr ⟨2 ^ 63 + 5, 2 ^ 63 + 3⟩ 65 = some r1 ∧
      operator_shl r1 65 = some r2 ∧
      value r2 = value ⟨2 ^ 63 + 5, 2 ^ 63 + 3⟩
        - value ⟨2 ^ 63 + 5, 2 ^ 63 + 3⟩ % 2 ^ (65 : Int).toNat :=
  C21_shr_then_shl ⟨2 ^ 63 + 5, 2 ^ 63 + 3⟩ 65 (by decide) (by decide) (by decide)

/-! ## PitchLinearCoord -/

/-- The unary `operator-()` of `PitchLinearCoord` is undefined exactly when one of the
two components is `-2^31`. -/
theorem PitchLinearCoord_operator_neg_eq_none (p : mutlass.PitchLinearCoord) :
    p.operator_neg = none ↔ p.contiguous = -2 ^ 31 ∨ p.strided = -2 ^ 31 := by
  unfold mutlass.PitchLinearCoord.operator_neg mutlass.PitchLinearCoord.contiguous
    mutlass.PitchLinearCoord.strided mutlass.PitchLinearCoord.kContiguous
    mutlass.PitchLinearCoord.kStrided mutlass.int_neg
  by_cases h0 : p.Base.at 0 = -2 ^ 31
  · rw [if_pos h0]
    exact ⟨fun _ => Or.inl h0, fun _ => rfl⟩
  · rw [if_neg h0]
    by_cases h1 : p.Base.at 1 = -2 ^ 31
    · rw [if_pos h1]
      exact ⟨fun _ => Or.inr h1, fun _ => rfl⟩
    · rw [if_neg h1]
      constructor
      · intro h; exact absurd h (by simp)
      · rintro (h | h)
        · exact absurd h h0
        · exact absurd h h1

/-- C22 (counterexample): for `p = PitchLinearCoord(-2^31, 5)` unary negation is
undefined (the built-in `-x` overflows), so there is no result whose components are
the negated components of `p`; indeed no `int` equals `-p.contiguous() = 2^31`. -/
theorem C22_neg_int_min_counterexample :
    (mutlass.PitchLinearCoord.ctor (-2 ^ 31) 5).operator_neg = none ∧
    (¬ ∃ q, (mutlass.PitchLinearCoord.ctor (-2 ^ 31) 5).operator_neg = some q ∧
        q.contiguous = -(mutlass.PitchLinearCoord.ctor (-2 ^ 31) 5).contiguous ∧
        q.strided = -(mutlass.PitchLinearCoord.ctor (-2 ^ 31) 5).strided) ∧
    (∀ q : mutlass.PitchLinearCoord, mutlass.IsInt q.contiguous →
        q.contiguous ≠ -(mutlass.PitchLinearCoord.ctor (-2 ^ 31) 5).contiguous) := by
  have hnone : (mutlass.PitchLinearCoord.ctor (-2 ^ 31) 5).operator_neg = none := by
    decide
  have hc : (mutlass.PitchLinearCoord.ctor (-2 ^ 31) 5).contiguous = -2 ^ 31 := rfl
  refine ⟨hnone, ?_, ?_⟩
  · rintro ⟨q, hq, _⟩
    rw [hnone] at hq
    exact absurd hq (by simp)
  · intro q hq
    rw [hc]
    unfold mutlass.IsInt at hq
    omega

/-- C22 (amended): `PitchLinearCoord` keeps the field order (contiguous, strided):
for all `int`s `c` and `s`, `PitchLinearCoord(c, s).contiguous() = c` (index 0 of the
rank-2 coordinate) and `PitchLinearCoord(c, s).strided() = s` (index 1); and for
every `p` whose components are both different from `-2^31`, unary negation is
defined and negates both components, `(-p).contiguous() = -p.contiguous()` and
`(-p).strided() = -p.strided()`. -/
theorem C22_pitch_linear_field_order (c s : Int) (p : mutlass.PitchLinearCoord)
    (hc : mutlass.IsInt c) (hs : mutlass.IsInt s)
    (hp0 : mutlass.IsInt p.contiguous) (hp1 : mutlass.IsInt p.strided)
    (hn0 : p.contiguous ≠ -2 ^ 31) (hn1 : p.strided ≠ -2 ^ 31) :
    ((mutlass.PitchLinearCoord.ctor c s).contiguous = c ∧
      (mutlass.PitchLinearCoord.ctor c s).Base.at 0 = c) ∧
    ((mutlass.PitchLinearCoord.ctor c s).strided = s ∧
      (mutlass.PitchLinearCoord.ctor c s).Base.at 1 = s) ∧
    ∃ q, p.operator_neg = some q ∧
      q.contiguous = -p.contiguous ∧ q.strided = -p.strided ∧
      mutlass.IsInt q.contiguous ∧ mutlass.IsInt q.strided := by
  have _ := hc
  have _ := hs
  have e0 : p.Base.at 0 = p.contiguous := rfl
  have e1 : p.Base.at 1 = p.strided := rfl
  refine ⟨⟨rfl, rfl⟩, ⟨rfl, rfl⟩,
    mutlass.PitchLinearCoord.ctor (-p.contiguous) (-p.strided), ?_, rfl, rfl, ?_, ?_⟩
  · unfold mutlass.PitchLinearCoord.operator_neg mutlass.int_neg
    rw [e0, e1, if_neg hn0, if_neg hn1]
    rfl
  · have e : (mutlass.PitchLinearCoord.ctor (-p.contiguous) (-p.strided)).contiguous
        = -p.contiguous := rfl
    rw [e]
    unfold mutlass.IsInt at hp0 ⊢
    omega
  · have e : (mutlass.PitchLinearCoord.ctor (-p.contiguous) (-p.strided)).strided
        = -p.strided := rfl
    rw [e]
    unfold mutlass.IsInt at hp1 ⊢
    omega

theorem C22_pitch_linear_field_order_witness :
    ((mutlass.PitchLinearCoord.ctor 3 (-7)).contiguous = 3 ∧
      (mutlass.PitchLinearCoord.ctor 3 (-7)).Base.at 0 = 3) ∧
    ((mutlass.PitchLinearCoord.ctor 3 (-7)).strided = -7 ∧
      (mutlass.PitchLinearCoord.ctor 3 (-7)).Base.at 1 = -7) ∧
    ∃ q, (mutlass.PitchLinearCoord.ctor (2 ^ 31 - 1) (-5)).operator_neg = some q ∧
      q.contiguous = -(mutlass.PitchLinearCoord.ctor (2 ^ 31 - 1) (-5)).contiguous ∧
      q.strided = -(mutlass.PitchLinearCoord.ctor (2 ^ 31 - 1) (-5)).strided ∧
      mutlass.IsInt q.contiguous ∧ mutlass.IsInt q.strided :=
  C22_pitch_linear_field_order 3 (-7) (mutlass.PitchLinearCoord.ctor (2 ^ 31 - 1) (-5))
    (by decide) (by decide) (by decide) (by decide) (by decide) (by decide)
